import Mathlib

/-!
# Formal model of the CooLex bowl-assembly program (`src/main.py`)

This file gives a shallow embedding of the program and proves/refutes the
specification claims about it.

Modelling conventions:

* Python `int` is modelled by `Int` (arbitrary precision, signed).
* Python `float` arithmetic is idealised as exact arithmetic: the threshold
  comparison of `Ingredient.is_below_threshold` (a single division, product and
  comparison) is modelled over `ℚ`, and the Euclidean distance
  (`(dx**2 + dy**2) ** 0.5`) over `ℝ` with `Real.sqrt`.
* Python exceptions escaping a method are modelled by returning the mutated
  state together with an `Option Err` / `Except Err` value: `some e` means the
  exception `e` escaped, and the state component holds whatever mutations had
  already happened (Python does not roll back on exceptions).
* The selection indices fed to `prepare_bowl` come from `choose_option`, which
  returns `0 ≤ i ≤ len - 1`, so list indices are modelled as `Nat`; an index
  `≥ length` raises `IndexError` (`Err.indexOutOfRange`).
* `print` calls are I/O only and are not modelled; in particular
  `alert_stock` (called from `traverse_and_prepare` after a successful
  consumption) has no effect on any program state.
* In Python every tree node holds a direct reference to a shared, mutable
  `Ingredient` object (many nodes alias one object).  Here the mutable
  ingredient ledgers live in the `CooLex` state and tree nodes hold an
  `IngId` naming the shared ledger entry, which is the same aliasing
  structure made explicit.
-/

namespace CooLexModel

/-- Errors that can escape the program's methods: `InsufficientStockError`
(carrying the ingredient name used in its message) and Python's `IndexError`
from list indexing. -/
inductive Err where
  | insufficientStock (name : String) : Err
  | indexOutOfRange : Err
deriving DecidableEq, Repr

deriving instance DecidableEq for Except

/-- The `Ingredient` class (src/main.py:23-29): `__init__` sets
`total_stock` and `stock` both to the `stock` argument. -/
structure Ingredient where
  name : String
  totalStock : Int
  stock : Int
  quantity : Int
  position : Int × Int
deriving DecidableEq, Repr

instance : Inhabited Ingredient := ⟨⟨"", 0, 0, 0, (0, 0)⟩⟩

/-- `Ingredient.use` (src/main.py:31-36): if `stock >= quantity`, decrement
`stock` by `quantity`; otherwise raise `InsufficientStockError` leaving the
object unchanged.  The returned pair is (object after the call, escaped
exception if any). -/
def Ingredient.use (i : Ingredient) : Ingredient × Option Err :=
  if i.quantity ≤ i.stock then
    ({ i with stock := i.stock - i.quantity }, none)
  else
    (i, some (Err.insufficientStock i.name))

/-- `Ingredient.check_stock` (src/main.py:38-39). -/
def Ingredient.checkStock (i : Ingredient) : Bool :=
  decide (i.quantity ≤ i.stock)

/-- `Ingredient.is_below_threshold` (src/main.py:41-42):
`(stock / total_stock) * 100 < threshold_percentage`, float division idealised
over `ℚ`.  The Python default argument is `20.0`; callers here pass the
threshold explicitly.  (For `total_stock = 0` Python would raise
`ZeroDivisionError`; in `ℚ`, `x / 0 = 0`.  All claims assume
`total_stock > 0`.) -/
def Ingredient.isBelowThreshold (i : Ingredient) (thresholdPercentage : ℚ) : Bool :=
  decide ((i.stock : ℚ) / (i.totalStock : ℚ) * 100 < thresholdPercentage)

/-- Identity of a shared mutable `Ingredient` object: which ledger list of the
`CooLex` instance it lives in, and at which index. -/
inductive IngId where
  | bowl : IngId
  | base (i : Nat) : IngId
  | protein (i : Nat) : IngId
  | topping (i : Nat) : IngId
  | sauce (i : Nat) : IngId
deriving DecidableEq, Repr

/-- The `TreeNode` class (src/main.py:11-20).  `ingredient` is the reference
to the shared ingredient object (as an `IngId`), `hasAction` models the
stored callable `action` (in `create_tree` it is always the referenced
ingredient's bound `use` method, so a `Bool` suffices), and `stockCheck` is
the `stock_check` flag. -/
inductive CatNode where
  | mk (name : String) (ingredient : Option IngId) (hasAction : Bool)
      (stockCheck : Bool) (children : List CatNode) : CatNode

def CatNode.name : CatNode → String
  | .mk n _ _ _ _ => n

def CatNode.ingredient : CatNode → Option IngId
  | .mk _ i _ _ _ => i

def CatNode.hasAction : CatNode → Bool
  | .mk _ _ a _ _ => a

def CatNode.stockCheck : CatNode → Bool
  | .mk _ _ _ s _ => s

def CatNode.children : CatNode → List CatNode
  | .mk _ _ _ _ c => c

/-- One level of `create_tree`'s list comprehensions
(e.g. src/main.py:65: one `TreeNode(x.name, ingredient=x, action=x.use,
stock_check=True)` per ingredient of the list, every node of the level sharing
the same child list). -/
def ingredientNodes (f : Nat → IngId) (l : List Ingredient) (children : List CatNode) :
    List CatNode :=
  (List.range l.length).map fun i =>
    CatNode.mk (l.getD i default).name (some (f i)) true true children

/-- The `sauce_nodes` of `create_tree` (src/main.py:77). -/
def sauceNodesOf (sauces : List Ingredient) : List CatNode :=
  ingredientNodes IngId.sauce sauces []

/-- The `topping_nodes` of `create_tree` (src/main.py:73). -/
def toppingNodesOf (toppings sauces : List Ingredient) : List CatNode :=
  ingredientNodes IngId.topping toppings (sauceNodesOf sauces)

/-- The `protein_nodes` of `create_tree` (src/main.py:69). -/
def proteinNodesOf (proteins toppings sauces : List Ingredient) : List CatNode :=
  ingredientNodes IngId.protein proteins (toppingNodesOf toppings sauces)

/-- The `base_nodes` of `create_tree` (src/main.py:65). -/
def baseNodesOf (bases proteins toppings sauces : List Ingredient) : List CatNode :=
  ingredientNodes IngId.base bases (proteinNodesOf proteins toppings sauces)

/-- `CooLex.create_tree` (src/main.py:59-80).  In the Python code every base
node gets a *fresh* list of protein nodes (and so on down the levels), but
those fresh nodes are structurally identical and alias the same ingredient
objects, so sharing one child-list value per level is the same tree. -/
def createTree (bowls : Ingredient) (bases proteins toppings sauces : List Ingredient) :
    CatNode :=
  CatNode.mk "Start" none false false
    [CatNode.mk bowls.name (some IngId.bowl) true true
      (baseNodesOf bases proteins toppings sauces)]

/-- The mutable state of a `CooLex` instance (src/main.py:46-57).  The
write-only attribute `current_node` (assigned in `reset` and
`traverse_and_prepare`, never read) is not modelled. -/
structure CooLex where
  bowls : Ingredient
  bases : List Ingredient
  proteins : List Ingredient
  toppings : List Ingredient
  sauces : List Ingredient
  root : CatNode
  initialPosition : Int × Int
  bowlDispenserPosition : Int × Int
  finalPosition : Int × Int
  currentPosition : Int × Int
  totalDistance : ℝ

/-- `CooLex.__init__` (src/main.py:46-57). -/
def CooLex.init (bowls : Ingredient) (bases proteins toppings sauces : List Ingredient) :
    CooLex :=
  { bowls := bowls
    bases := bases
    proteins := proteins
    toppings := toppings
    sauces := sauces
    root := createTree bowls bases proteins toppings sauces
    initialPosition := (310, 310)
    bowlDispenserPosition := (650, 660)
    finalPosition := (410, 610)
    currentPosition := (310, 310)
    totalDistance := 0 }

/-- `CooLex.distance` (src/main.py:90-91):
`((x1 - x2) ** 2 + (y1 - y2) ** 2) ** 0.5`, i.e. the Euclidean distance,
idealised over `ℝ`. -/
noncomputable def distance (position1 position2 : Int × Int) : ℝ :=
  Real.sqrt (((position1.1 - position2.1 : Int) : ℝ) ^ 2
    + ((position1.2 - position2.2 : Int) : ℝ) ^ 2)

/-- `CooLex.move_to` (src/main.py:82-88): add the distance from the current
position to the ingredient's position to `total_distance`, then set the
current position to it. -/
noncomputable def CooLex.moveTo (cl : CooLex) (ingredient : Ingredient) : CooLex :=
  { cl with
    totalDistance := cl.totalDistance + distance cl.currentPosition ingredient.position
    currentPosition := ingredient.position }

/-- `CooLex.reset` (src/main.py:124-127) without the unread `current_node`. -/
def CooLex.reset (cl : CooLex) : CooLex :=
  { cl with currentPosition := cl.initialPosition, totalDistance := 0 }

/-- Dereference an `IngId`: the ingredient object it names. -/
def CooLex.getIng (cl : CooLex) : IngId → Option Ingredient
  | .bowl => some cl.bowls
  | .base i => cl.bases[i]?
  | .protein i => cl.proteins[i]?
  | .topping i => cl.toppings[i]?
  | .sauce i => cl.sauces[i]?

/-- Write back the mutation of the shared ingredient object named by an
`IngId`. -/
def CooLex.setIng (cl : CooLex) (id : IngId) (ing : Ingredient) : CooLex :=
  match id with
  | .bowl => { cl with bowls := ing }
  | .base i => { cl with bases := cl.bases.set i ing }
  | .protein i => { cl with proteins := cl.proteins.set i ing }
  | .topping i => { cl with toppings := cl.toppings.set i ing }
  | .sauce i => { cl with sauces := cl.sauces.set i ing }

/-- `CooLex.traverse_and_prepare` (src/main.py:93-100): when the node stores
an action and an ingredient, move to the ingredient and invoke the action
(which in every tree built by `create_tree` is the ingredient's `use`); an
`InsufficientStockError` escapes after the move, before the threshold check.
The threshold check feeds `alert_stock`, a pure `print` with no state effect.
The `getIng = none` branch cannot occur for nodes of a built tree (the Python
node holds the object itself). -/
noncomputable def CooLex.traverseAndPrepare (cl : CooLex) (nextNode : CatNode) :
    CooLex × Option Err :=
  match nextNode.ingredient, nextNode.hasAction with
  | some id, true =>
    match cl.getIng id with
    | some ing =>
      let cl2 := cl.moveTo ing
      match ing.use with
      | (ing2, none) => (cl2.setIng id ing2, none)
      | (_, some e) => (cl2, some e)
    | none => (cl, none)
  | _, _ => (cl, none)

/-- The `for node in path` loop of `prepare_bowl` (src/main.py:115-116): run
`traverse_and_prepare` on each node in order, stopping at the first escaped
exception. -/
noncomputable def CooLex.traversePath (cl : CooLex) : List CatNode → CooLex × Option Err
  | [] => (cl, none)
  | n :: rest =>
    match cl.traverseAndPrepare n with
    | (cl2, none) => cl2.traversePath rest
    | (cl2, some e) => (cl2, some e)

/-- Python list subscription `l[i]` for a non-negative index: the element, or
`IndexError` when `i ≥ len(l)`. -/
def listIdx {α : Type} (l : List α) (i : Nat) : Except Err α :=
  if h : i < l.length then Except.ok (l.get ⟨i, h⟩) else Except.error Err.indexOutOfRange

/-- The list comprehension `[protein_node.children[i] for i in topping_indices]`
(src/main.py:108): index repeatedly into one child list, raising at the first
out-of-range index. -/
def lookupAll (l : List CatNode) : List Nat → Except Err (List CatNode)
  | [] => Except.ok []
  | i :: rest =>
    match listIdx l i with
    | Except.error e => Except.error e
    | Except.ok n =>
      match lookupAll l rest with
      | Except.error e => Except.error e
      | Except.ok ns => Except.ok (n :: ns)

/-- `topping_indices.sort(reverse=True)` (src/main.py:107): stable descending
sort.  On `Nat` any correct descending sort gives the list Python produces. -/
def sortDesc (l : List Nat) : List Nat :=
  l.insertionSort (fun a b => b ≤ a)

/-- The path-composition part of `prepare_bowl` (src/main.py:105-111): resolve
the selection indices to tree nodes.  Returns the final value of the caller's
`topping_indices` list (the in-place sort at line 107 is observable by the
caller, but only once lines 105-106 have succeeded) together with either the
escaped `IndexError` or the resolved `path` list. -/
def resolvePath (root : CatNode) (baseIndex proteinIndex : Nat)
    (toppingIndices : List Nat) (sauceIndex : Nat) :
    List Nat × Except Err (List CatNode) :=
  match listIdx root.children 0 with
  | Except.error e => (toppingIndices, Except.error e)
  | Except.ok bowlNode =>
  match listIdx bowlNode.children baseIndex with
  | Except.error e => (toppingIndices, Except.error e)
  | Except.ok baseNode =>
  match listIdx baseNode.children proteinIndex with
  | Except.error e => (toppingIndices, Except.error e)
  | Except.ok proteinNode =>
  let sorted := sortDesc toppingIndices
  match lookupAll proteinNode.children sorted with
  | Except.error e => (sorted, Except.error e)
  | Except.ok toppingNodes =>
  match listIdx toppingNodes 0 with
  | Except.error e => (sorted, Except.error e)
  | Except.ok firstTopping =>
  match listIdx firstTopping.children sauceIndex with
  | Except.error e => (sorted, Except.error e)
  | Except.ok sauceNode =>
    (sorted, Except.ok ([baseNode, proteinNode] ++ toppingNodes ++ [sauceNode]))

/-- `CooLex.prepare_bowl` (src/main.py:102-119).  The result triple is (the
`CooLex` state after the call, the final value of the caller's
`topping_indices` list, and the outcome: `Except.ok ()` for the success
return — whose Python string also embeds `round(total_distance, 2)`, a
formatting detail of the message — or the escaped exception). -/
noncomputable def CooLex.prepareBowl (cl : CooLex) (baseIndex proteinIndex : Nat)
    (toppingIndices : List Nat) (sauceIndex : Nat) :
    CooLex × List Nat × Except Err Unit :=
  let cl0 := cl.reset
  match resolvePath cl0.root baseIndex proteinIndex toppingIndices sauceIndex with
  | (ts, Except.error e) => (cl0, ts, Except.error e)
  | (ts, Except.ok path) =>
    let cl1 := cl0.moveTo (Ingredient.mk "Bowl Dispenser" 0 0 0 cl0.bowlDispenserPosition)
    match cl1.traversePath path with
    | (cl2, some e) => (cl2, ts, Except.error e)
    | (cl2, none) =>
      let cl3 := cl2.moveTo (Ingredient.mk "Final Position" 0 0 0 cl2.finalPosition)
      (cl3, ts, Except.ok ())

instance : Inhabited CatNode := ⟨CatNode.mk "" none false false []⟩

/-- The five ingredient ledgers of a `CooLex` state, bundled. -/
def CooLex.ledgers (cl : CooLex) :
    Ingredient × List Ingredient × List Ingredient × List Ingredient × List Ingredient :=
  (cl.bowls, cl.bases, cl.proteins, cl.toppings, cl.sauces)

/-- Current stock of the ingredient object named by an `IngId`. -/
def CooLex.stockOf (cl : CooLex) (id : IngId) : Option Int :=
  (cl.getIng id).map Ingredient.stock

/-- Station position of the ingredient object named by an `IngId`. -/
def CooLex.posOf (cl : CooLex) (id : IngId) : Option (Int × Int) :=
  (cl.getIng id).map Ingredient.position

/-- The ingredient identities a customer selection designates: the selected
base, the selected protein, the selected toppings and the selected sauce. -/
def selectedIds (baseIndex proteinIndex : Nat) (toppingIndices : List Nat)
    (sauceIndex : Nat) : List IngId :=
  IngId.base baseIndex :: IngId.protein proteinIndex ::
    (toppingIndices.map IngId.topping ++ [IngId.sauce sauceIndex])

/-- The ingredient object after a sequence of `n` consume calls on it (failed
calls leave the object unchanged, exactly as an escaped
`InsufficientStockError` does). -/
def consumeSeq (i : Ingredient) : Nat → Ingredient
  | 0 => i
  | n + 1 => ((consumeSeq i n).use).1

/-- Sum of the Euclidean distances between consecutive stops of an itinerary
that starts at the first argument. -/
noncomputable def pairSum : Int × Int → List (Int × Int) → ℝ
  | _, [] => 0
  | p, q :: rest => distance p q + pairSum q rest

/-- The station `traverse_and_prepare` moves to for a node (`none` when the
node triggers no move, or its ingredient reference dangles). -/
def stationOf (cl : CooLex) (n : CatNode) : Option (Int × Int) :=
  match n.ingredient, n.hasAction with
  | some id, true => (cl.getIng id).map Ingredient.position
  | _, _ => none

/-- The stations visited while traversing a node list, resolved against the
ledger state `cl` (`none` when some node triggers no move). -/
def stationsOf (cl : CooLex) : List CatNode → Option (List (Int × Int))
  | [] => some []
  | n :: ns =>
    match stationOf cl n, stationsOf cl ns with
    | some p, some ps => some (p :: ps)
    | _, _ => none

/-! ### A small concrete catalog, used to evaluate the model on closed inputs -/

def exBowls : Ingredient := ⟨"bowls", 80, 80, 1, (650, 660)⟩

def exBases : List Ingredient :=
  [⟨"B0", 100, 100, 10, (0, 0)⟩, ⟨"B1", 100, 10, 10, (3, 4)⟩]

def exProteins : List Ingredient := [⟨"P0", 100, 100, 10, (10, 0)⟩]

def exToppings : List Ingredient :=
  [⟨"T0", 100, 100, 10, (20, 0)⟩, ⟨"T1", 100, 100, 10, (30, 0)⟩]

def exSauces : List Ingredient := [⟨"S0", 100, 100, 10, (40, 0)⟩]

def exCl : CooLex := CooLex.init exBowls exBases exProteins exToppings exSauces

/-- A variant whose protein `P0` has stock `5 < quantity 10`, so consuming it
fails. -/
def exClLow : CooLex := CooLex.init exBowls [⟨"B0", 100, 100, 10, (0, 0)⟩]
  [⟨"P0", 100, 5, 10, (10, 0)⟩] exToppings exSauces

/-- The base node `exClLow`'s path composer resolves for base index 0. -/
def exLowBaseNode : CatNode :=
  CatNode.mk "B0" (some (IngId.base 0)) true true
    (proteinNodesOf [⟨"P0", 100, 5, 10, (10, 0)⟩] exToppings exSauces)

/-- The protein node `exClLow`'s path composer resolves for protein index 0. -/
def exLowProteinNode : CatNode :=
  CatNode.mk "P0" (some (IngId.protein 0)) true true (toppingNodesOf exToppings exSauces)

/-- The topping node `exClLow`'s path composer resolves for topping index 0. -/
def exLowToppingNode : CatNode :=
  CatNode.mk "T0" (some (IngId.topping 0)) true true (sauceNodesOf exSauces)

/-- The sauce node `exClLow`'s path composer resolves for sauce index 0. -/
def exLowSauceNode : CatNode :=
  CatNode.mk "S0" (some (IngId.sauce 0)) true true []

/-! ## Lemmas about the ingredient ledger -/

theorem Ingredient.use_fst_of_ok (i : Ingredient) (h : i.quantity ≤ i.stock) :
    i.use = ({ i with stock := i.stock - i.quantity }, none) := by
  simp [Ingredient.use, h]

theorem Ingredient.use_fst_of_fail (i : Ingredient) (h : i.stock < i.quantity) :
    i.use = (i, some (Err.insufficientStock i.name)) := by
  simp [Ingredient.use, not_le.mpr h]

theorem Ingredient.use_quantity (i : Ingredient) : (i.use).1.quantity = i.quantity := by
  rw [Ingredient.use]; split <;> rfl

theorem Ingredient.use_totalStock (i : Ingredient) : (i.use).1.totalStock = i.totalStock := by
  rw [Ingredient.use]; split <;> rfl

theorem Ingredient.use_name (i : Ingredient) : (i.use).1.name = i.name := by
  rw [Ingredient.use]; split <;> rfl

theorem Ingredient.use_position (i : Ingredient) : (i.use).1.position = i.position := by
  rw [Ingredient.use]; split <;> rfl

/-- One consume call keeps `0 ≤ stock ≤ totalStock` when the per-use quantity
is positive. -/
theorem Ingredient.use_stock_bounds (i : Ingredient) (hq : 0 < i.quantity)
    (h0 : 0 ≤ i.stock) (h1 : i.stock ≤ i.totalStock) :
    0 ≤ (i.use).1.stock ∧ (i.use).1.stock ≤ i.totalStock := by
  rw [Ingredient.use]
  split
  · rename_i h
    constructor
    · simpa using h
    · simp only
      omega
  · exact ⟨h0, h1⟩

theorem consumeSeq_quantity (i : Ingredient) (n : Nat) :
    (consumeSeq i n).quantity = i.quantity := by
  induction n with
  | zero => rfl
  | succ n ih => rw [consumeSeq, Ingredient.use_quantity, ih]

theorem consumeSeq_totalStock (i : Ingredient) (n : Nat) :
    (consumeSeq i n).totalStock = i.totalStock := by
  induction n with
  | zero => rfl
  | succ n ih => rw [consumeSeq, Ingredient.use_totalStock, ih]

/-! ## Claim theorems about the ingredient ledger -/

/-- C2: `Ingredient.use` succeeds and decrements `stock` by exactly
`quantity` whenever `stock ≥ quantity`, and otherwise raises
`InsufficientStockError` naming the ingredient while leaving the object (in
particular its stock) unchanged. -/
theorem C2_consume_spec (i : Ingredient) :
    (i.quantity ≤ i.stock →
      i.use = ({ i with stock := i.stock - i.quantity }, none)) ∧
    (i.stock < i.quantity →
      i.use = (i, some (Err.insufficientStock i.name))) :=
  ⟨fun h => Ingredient.use_fst_of_ok i h, fun h => Ingredient.use_fst_of_fail i h⟩

theorem C2_consume_spec_witness :
    ((3 : Int) ≤ 10 ∧
      (Ingredient.mk "A" 10 10 3 (0, 0)).use = (Ingredient.mk "A" 10 7 3 (0, 0), none)) ∧
    ((2 : Int) < 5 ∧
      (Ingredient.mk "B" 10 2 5 (0, 0)).use =
        (Ingredient.mk "B" 10 2 5 (0, 0), some (Err.insufficientStock "B"))) :=
  ⟨⟨by decide, (C2_consume_spec (Ingredient.mk "A" 10 10 3 (0, 0))).1 (by decide)⟩,
   ⟨by decide, (C2_consume_spec (Ingredient.mk "B" 10 2 5 (0, 0))).2 (by decide)⟩⟩

/-- C3: for an ingredient created with positive per-use quantity and initial
stock equal to its (non-negative) total stock, after any finite sequence of
consume calls — failed ones included — `0 ≤ stock ≤ totalStock` holds. -/
theorem C3_stock_invariant (i : Ingredient) (hq : 0 < i.quantity)
    (htot : 0 ≤ i.totalStock) (hinit : i.stock = i.totalStock) (n : Nat) :
    0 ≤ (consumeSeq i n).stock ∧ (consumeSeq i n).stock ≤ i.totalStock := by
  induction n with
  | zero => exact ⟨hinit ▸ htot, hinit ▸ le_refl _⟩
  | succ n ih =>
    rw [consumeSeq]
    have hb := Ingredient.use_stock_bounds (consumeSeq i n)
      (by rw [consumeSeq_quantity]; exact hq) ih.1 (by rw [consumeSeq_totalStock]; exact ih.2)
    exact ⟨hb.1, by rw [consumeSeq_totalStock] at hb; exact hb.2⟩

theorem C3_stock_invariant_witness :
    ((0 : Int) < 30 ∧ (0 : Int) ≤ 100 ∧ (100 : Int) = 100) ∧
    (0 ≤ (consumeSeq (Ingredient.mk "A" 100 100 30 (0, 0)) 5).stock ∧
      (consumeSeq (Ingredient.mk "A" 100 100 30 (0, 0)) 5).stock ≤ 100) :=
  ⟨⟨by decide, by decide, by decide⟩,
   C3_stock_invariant (Ingredient.mk "A" 100 100 30 (0, 0))
     (by decide) (by decide) (by decide) 5⟩

/-- C6: `is_below_threshold` at threshold `20` answers
`(stock / totalStock) * 100 < 20`, which for a positive capacity is
equivalent to the integer comparison `stock * 100 < totalStock * 20`; in
particular it is `true` when the stock is `0`. -/
theorem C6_threshold_iff (i : Ingredient) (h : 0 < i.totalStock) :
    (i.isBelowThreshold 20 = true ↔ i.stock * 100 < i.totalStock * 20) ∧
    (i.stock = 0 → i.isBelowThreshold 20 = true) := by
  have key : i.isBelowThreshold 20 = true ↔ i.stock * 100 < i.totalStock * 20 := by
    rw [Ingredient.isBelowThreshold, decide_eq_true_iff, div_mul_eq_mul_div,
      div_lt_iff₀ (by exact_mod_cast h), mul_comm (20 : ℚ)]
    norm_cast
  refine ⟨key, fun h0 => key.mpr ?_⟩
  rw [h0]
  simpa using mul_pos h (by norm_num : (0 : Int) < 20)

theorem C6_threshold_iff_witness :
    ((0 : Int) < 100 ∧
      ((Ingredient.mk "x" 100 20 20 (0, 0)).isBelowThreshold 20 = true ↔
        (20 : Int) * 100 < 100 * 20) ∧
      ¬((20 : Int) * 100 < 100 * 20)) ∧
    ((0 : Int) < 100 ∧
      (Ingredient.mk "x" 100 0 20 (0, 0)).isBelowThreshold 20 = true) :=
  ⟨⟨by decide, (C6_threshold_iff (Ingredient.mk "x" 100 20 20 (0, 0)) (by decide)).1,
    by decide⟩,
   ⟨by decide, (C6_threshold_iff (Ingredient.mk "x" 100 0 20 (0, 0)) (by decide)).2 rfl⟩⟩

/-! ## Lemmas about list indexing and the descending sort -/

theorem listIdx_ok {α : Type} (l : List α) (i : Nat) (h : i < l.length) :
    listIdx l i = Except.ok (l.get ⟨i, h⟩) := by
  rw [listIdx, dif_pos h]

theorem listIdx_err {α : Type} (l : List α) (i : Nat) (h : l.length ≤ i) :
    listIdx l i = Except.error Err.indexOutOfRange := by
  rw [listIdx, dif_neg (not_lt.mpr h)]

theorem listIdx_getD {α : Type} [Inhabited α] (l : List α) (i : Nat) (h : i < l.length) :
    listIdx l i = Except.ok (l.getD i default) := by
  rw [listIdx_ok l i h, List.getD_eq_getElem?_getD, List.getElem?_eq_getElem h]
  rfl

theorem lookupAll_ok (l : List CatNode) (idxs : List Nat)
    (h : ∀ t ∈ idxs, t < l.length) :
    lookupAll l idxs = Except.ok (idxs.map fun t => l.getD t default) := by
  induction idxs with
  | nil => rfl
  | cons t rest ih =>
    rw [lookupAll, listIdx_getD l t (h t (List.mem_cons_self t rest)),
      ih fun x hx => h x (List.mem_cons_of_mem t hx)]
    rfl

theorem lookupAll_err (l : List CatNode) (idxs : List Nat)
    (h : ∃ t ∈ idxs, l.length ≤ t) :
    ∃ e, lookupAll l idxs = Except.error e ∧ e = Err.indexOutOfRange := by
  induction idxs with
  | nil => simp at h
  | cons t rest ih =>
    rcases h with ⟨x, hx, hge⟩
    rw [lookupAll]
    rcases List.mem_cons.mp hx with rfl | hmem
    · rw [listIdx_err l x hge]
      exact ⟨_, rfl, rfl⟩
    · by_cases ht : t < l.length
      · rw [listIdx_getD l t ht]
        rcases ih ⟨x, hmem, hge⟩ with ⟨e, he, rfl⟩
        rw [he]
        exact ⟨_, rfl, rfl⟩
      · rw [listIdx_err l t (not_lt.mp ht)]
        exact ⟨_, rfl, rfl⟩

theorem sortDesc_perm (l : List Nat) : List.Perm (sortDesc l) l :=
  List.perm_insertionSort _ l

theorem sortDesc_mem (l : List Nat) (a : Nat) : a ∈ sortDesc l ↔ a ∈ l :=
  (sortDesc_perm l).mem_iff

theorem sortDesc_sorted (l : List Nat) : List.Sorted (fun a b => b ≤ a) (sortDesc l) :=
  List.sorted_insertionSort _ l

theorem sortDesc_ne_nil (l : List Nat) (h : l ≠ []) : sortDesc l ≠ [] := by
  intro hnil
  have hp : List.Perm ([] : List Nat) l := hnil ▸ sortDesc_perm l
  exact h hp.symm.eq_nil

/-- Every selected topping index is at most the first element of the
descending sort: the first resolved topping slot is the highest-indexed
selected topping. -/
theorem sortDesc_head_max (l : List Nat) (t : Nat) (ht : t ∈ l) :
    t ≤ (sortDesc l).headI := by
  have hmem : t ∈ sortDesc l := (sortDesc_mem l t).mpr ht
  rcases hd : sortDesc l with _ | ⟨a, rest⟩
  · rw [hd] at hmem; simp at hmem
  · rw [hd] at hmem
    rcases List.mem_cons.mp hmem with rfl | hmem2
    · exact le_refl _
    · have hs := sortDesc_sorted l
      rw [hd] at hs
      exact List.rel_of_sorted_cons hs t hmem2

/-! ## Lemmas about the catalog tree structure -/

theorem ingredientNodes_length (f : Nat → IngId) (l : List Ingredient)
    (c : List CatNode) : (ingredientNodes f l c).length = l.length := by
  simp [ingredientNodes]

theorem ingredientNodes_getD (f : Nat → IngId) (l : List Ingredient)
    (c : List CatNode) (i : Nat) (h : i < l.length) :
    (ingredientNodes f l c).getD i default =
      CatNode.mk (l.getD i default).name (some (f i)) true true c := by
  have hlen : i < (ingredientNodes f l c).length := by
    rw [ingredientNodes_length]; exact h
  rw [List.getD_eq_getElem?_getD, List.getElem?_eq_getElem hlen]
  simp [ingredientNodes]

theorem listIdx_ingredientNodes (f : Nat → IngId) (l : List Ingredient)
    (c : List CatNode) (i : Nat) (h : i < l.length) :
    listIdx (ingredientNodes f l c) i =
      Except.ok (CatNode.mk (l.getD i default).name (some (f i)) true true c) := by
  have hlen : i < (ingredientNodes f l c).length := by
    rw [ingredientNodes_length]; exact h
  rw [listIdx_getD _ i hlen, ingredientNodes_getD f l c i h]

theorem listIdx_ingredientNodes_err (f : Nat → IngId) (l : List Ingredient)
    (c : List CatNode) (i : Nat) (h : l.length ≤ i) :
    listIdx (ingredientNodes f l c) i = Except.error Err.indexOutOfRange :=
  listIdx_err _ i (by rw [ingredientNodes_length]; exact h)

theorem listIdx_cons_zero {α : Type} (x : α) (xs : List α) :
    listIdx (x :: xs) 0 = Except.ok x := by
  rw [listIdx_ok (x :: xs) 0 (Nat.succ_pos xs.length)]
  rfl

theorem listIdx_nil {α : Type} (i : Nat) :
    listIdx ([] : List α) i = Except.error Err.indexOutOfRange :=
  listIdx_err [] i (Nat.zero_le i)

/-- The resolved form of a selected base node. -/
theorem listIdx_baseNodes (bs ps tp sc : List Ingredient) (b : Nat)
    (hb : b < bs.length) :
    listIdx (baseNodesOf bs ps tp sc) b =
      Except.ok (CatNode.mk (bs.getD b default).name (some (IngId.base b)) true true
        (proteinNodesOf ps tp sc)) :=
  listIdx_ingredientNodes _ bs _ b hb

/-! ## Characterisation of the path composer on a built tree -/

/-- On a tree built by `create_tree`, an in-bounds selection resolves to the
path [selected base, selected protein, selected toppings in descending index
order, selected sauce], and the caller's topping list comes back sorted. -/
theorem resolvePath_ok (bw : Ingredient) (bs ps tp sc : List Ingredient)
    (b p s : Nat) (ts : List Nat)
    (hb : b < bs.length) (hp : p < ps.length) (hne : ts ≠ [])
    (hts : ∀ t ∈ ts, t < tp.length) (hs : s < sc.length) :
    resolvePath (createTree bw bs ps tp sc) b p ts s =
      (sortDesc ts, Except.ok
        (CatNode.mk (bs.getD b default).name (some (IngId.base b)) true true
            (proteinNodesOf ps tp sc) ::
         CatNode.mk (ps.getD p default).name (some (IngId.protein p)) true true
            (toppingNodesOf tp sc) ::
         (((sortDesc ts).map fun t =>
            CatNode.mk (tp.getD t default).name (some (IngId.topping t)) true true
              (sauceNodesOf sc)) ++
          [CatNode.mk (sc.getD s default).name (some (IngId.sauce s)) true true []]))) := by
  obtain ⟨t0, rest, hd⟩ : ∃ t0 rest, sortDesc ts = t0 :: rest := by
    rcases h' : sortDesc ts with _ | ⟨t0, rest⟩
    · exact absurd h' (sortDesc_ne_nil ts hne)
    · exact ⟨t0, rest, rfl⟩
  have hmemts : ∀ t ∈ t0 :: rest, t < tp.length := fun t ht =>
    hts t ((sortDesc_mem ts t).mp (hd ▸ ht))
  have hLA : lookupAll (ingredientNodes IngId.topping tp (ingredientNodes IngId.sauce sc []))
      (t0 :: rest) =
      Except.ok ((t0 :: rest).map fun t =>
        CatNode.mk (tp.getD t default).name (some (IngId.topping t)) true true
          (ingredientNodes IngId.sauce sc [])) := by
    rw [lookupAll_ok _ _ fun t ht => by
      rw [ingredientNodes_length]; exact hmemts t ht]
    congr 1
    refine List.map_congr_left fun t ht => ?_
    rw [ingredientNodes_getD _ tp _ t (hmemts t ht)]
  simp only [resolvePath, createTree, CatNode.children, listIdx_cons_zero,
    listIdx_baseNodes bs ps tp sc b hb,
    proteinNodesOf, toppingNodesOf, sauceNodesOf,
    listIdx_ingredientNodes IngId.protein ps _ p hp, hd, hLA,
    List.map_cons, listIdx_cons_zero,
    ingredientNodes_getD IngId.topping tp _ t0 (hmemts t0 (List.mem_cons_self t0 rest)),
    listIdx_ingredientNodes IngId.sauce sc _ s hs,
    List.cons_append, List.nil_append, List.singleton_append, List.append_assoc]

/-- On a built tree, a selection with any out-of-bounds index makes the path
composer raise `IndexError`. -/
theorem resolvePath_err (bw : Ingredient) (bs ps tp sc : List Ingredient)
    (b p s : Nat) (ts : List Nat)
    (h : bs.length ≤ b ∨ ps.length ≤ p ∨ (∃ t ∈ ts, tp.length ≤ t) ∨ sc.length ≤ s) :
    (resolvePath (createTree bw bs ps tp sc) b p ts s).2 =
      Except.error Err.indexOutOfRange := by
  by_cases hb : b < bs.length
  case neg =>
    simp only [resolvePath, createTree, CatNode.children, listIdx_cons_zero,
      baseNodesOf, listIdx_ingredientNodes_err IngId.base bs _ b (not_lt.mp hb)]
  case pos =>
  by_cases hp : p < ps.length
  case neg =>
    simp only [resolvePath, createTree, CatNode.children, listIdx_cons_zero,
      listIdx_baseNodes bs ps tp sc b hb, CatNode.children,
      proteinNodesOf, listIdx_ingredientNodes_err IngId.protein ps _ p (not_lt.mp hp)]
  case pos =>
  by_cases hl : ∀ t ∈ ts, t < tp.length
  case neg =>
    push_neg at hl
    rcases hl with ⟨t, htmem, htge⟩
    rcases lookupAll_err (toppingNodesOf tp sc) (sortDesc ts)
        ⟨t, (sortDesc_mem ts t).mpr htmem, by
          rw [toppingNodesOf, ingredientNodes_length]; exact htge⟩
      with ⟨e, he, rfl⟩
    simp only [resolvePath, createTree, CatNode.children, listIdx_cons_zero,
      listIdx_baseNodes bs ps tp sc b hb,
      proteinNodesOf, listIdx_ingredientNodes IngId.protein ps _ p hp, he]
  case pos =>
    have hs : sc.length ≤ s := by
      rcases h with h | h | ⟨t, htmem, htge⟩ | h
      · exact absurd hb (not_lt.mpr h)
      · exact absurd hp (not_lt.mpr h)
      · exact absurd (hl t htmem) (not_lt.mpr htge)
      · exact h
    rcases hd : sortDesc ts with _ | ⟨t0, rest⟩
    · have hLA : lookupAll (ingredientNodes IngId.topping tp (ingredientNodes IngId.sauce sc []))
          ([] : List Nat) = Except.ok [] := rfl
      simp only [resolvePath, createTree, CatNode.children, listIdx_cons_zero,
        listIdx_baseNodes bs ps tp sc b hb,
        proteinNodesOf, toppingNodesOf, sauceNodesOf,
        listIdx_ingredientNodes IngId.protein ps _ p hp,
        hd, hLA, listIdx_nil]
    · have hmemts : ∀ t ∈ t0 :: rest, t < tp.length := fun t ht =>
        hl t ((sortDesc_mem ts t).mp (hd ▸ ht))
      have hLA : lookupAll (ingredientNodes IngId.topping tp (ingredientNodes IngId.sauce sc []))
          (t0 :: rest) =
          Except.ok ((t0 :: rest).map fun t =>
            (ingredientNodes IngId.topping tp (ingredientNodes IngId.sauce sc [])).getD
              t default) :=
        lookupAll_ok _ _ fun t ht => by
          rw [ingredientNodes_length]; exact hmemts t ht
      simp only [resolvePath, createTree, CatNode.children, listIdx_cons_zero,
        listIdx_baseNodes bs ps tp sc b hb,
        proteinNodesOf, toppingNodesOf, sauceNodesOf,
        listIdx_ingredientNodes IngId.protein ps _ p hp,
        hd, hLA, List.map_cons, listIdx_cons_zero,
        ingredientNodes_getD IngId.topping tp _ t0 (hmemts t0 (List.mem_cons_self t0 rest)),
        listIdx_ingredientNodes_err IngId.sauce sc _ s hs]

/-- With an empty topping selection the path composer raises `IndexError`
(`topping_nodes[0]` on an empty list), whatever the other indices are. -/
theorem resolvePath_nil (bw : Ingredient) (bs ps tp sc : List Ingredient)
    (b p s : Nat) :
    (resolvePath (createTree bw bs ps tp sc) b p [] s).2 =
      Except.error Err.indexOutOfRange := by
  by_cases hb : b < bs.length
  case neg =>
    simp only [resolvePath, createTree, CatNode.children, listIdx_cons_zero,
      baseNodesOf, listIdx_ingredientNodes_err IngId.base bs _ b (not_lt.mp hb)]
  case pos =>
  by_cases hp : p < ps.length
  case neg =>
    simp only [resolvePath, createTree, CatNode.children, listIdx_cons_zero,
      listIdx_baseNodes bs ps tp sc b hb,
      proteinNodesOf, listIdx_ingredientNodes_err IngId.protein ps _ p (not_lt.mp hp)]
  case pos =>
    have hsort : sortDesc ([] : List Nat) = [] := rfl
    have hLA : lookupAll (ingredientNodes IngId.topping tp (ingredientNodes IngId.sauce sc []))
        ([] : List Nat) = Except.ok [] := rfl
    simp only [resolvePath, createTree, CatNode.children, listIdx_cons_zero,
      listIdx_baseNodes bs ps tp sc b hb,
      proteinNodesOf, toppingNodesOf, sauceNodesOf,
      listIdx_ingredientNodes IngId.protein ps _ p hp,
      hsort, hLA, listIdx_nil]

/-- Inversion: a successful resolution forces every selection index in
bounds, a non-empty topping selection, the sorted topping list as the
caller-visible list, and the explicit path. -/
theorem resolvePath_ok_inv (bw : Ingredient) (bs ps tp sc : List Ingredient)
    (b p s : Nat) (ts ts' : List Nat) (path : List CatNode)
    (h : resolvePath (createTree bw bs ps tp sc) b p ts s = (ts', Except.ok path)) :
    b < bs.length ∧ p < ps.length ∧ ts ≠ [] ∧ (∀ t ∈ ts, t < tp.length) ∧
      s < sc.length ∧ ts' = sortDesc ts ∧
      path =
        (CatNode.mk (bs.getD b default).name (some (IngId.base b)) true true
            (proteinNodesOf ps tp sc) ::
         CatNode.mk (ps.getD p default).name (some (IngId.protein p)) true true
            (toppingNodesOf tp sc) ::
         (((sortDesc ts).map fun t =>
            CatNode.mk (tp.getD t default).name (some (IngId.topping t)) true true
              (sauceNodesOf sc)) ++
          [CatNode.mk (sc.getD s default).name (some (IngId.sauce s)) true true []])) := by
  have h2 := congrArg Prod.snd h
  simp only at h2
  by_cases hb : b < bs.length
  case neg =>
    rw [resolvePath_err bw bs ps tp sc b p s ts (Or.inl (not_lt.mp hb))] at h2
    exact absurd h2 (by simp)
  case pos =>
  by_cases hp : p < ps.length
  case neg =>
    rw [resolvePath_err bw bs ps tp sc b p s ts (Or.inr (Or.inl (not_lt.mp hp)))] at h2
    exact absurd h2 (by simp)
  case pos =>
  by_cases hne : ts = []
  case pos =>
    subst hne
    rw [resolvePath_nil bw bs ps tp sc b p s] at h2
    exact absurd h2 (by simp)
  case neg =>
  by_cases hts : ∀ t ∈ ts, t < tp.length
  case neg =>
    push_neg at hts
    rcases hts with ⟨t, htm, hge⟩
    rw [resolvePath_err bw bs ps tp sc b p s ts
      (Or.inr (Or.inr (Or.inl ⟨t, htm, hge⟩)))] at h2
    exact absurd h2 (by simp)
  case pos =>
  by_cases hs : s < sc.length
  case neg =>
    rw [resolvePath_err bw bs ps tp sc b p s ts
      (Or.inr (Or.inr (Or.inr (not_lt.mp hs))))] at h2
    exact absurd h2 (by simp)
  case pos =>
    rw [resolvePath_ok bw bs ps tp sc b p s ts hb hp hne hts hs] at h
    have hfst := congrArg Prod.fst h
    have hsnd := congrArg Prod.snd h
    simp only at hfst hsnd
    exact ⟨hb, hp, hne, hts, hs, hfst.symm, (Except.ok.inj hsnd).symm⟩

/-! ## Frame lemmas for the execution engine -/

theorem CooLex.moveTo_getIng (cl : CooLex) (ing : Ingredient) (id : IngId) :
    (cl.moveTo ing).getIng id = cl.getIng id := by
  cases id <;> rfl

theorem CooLex.moveTo_ledgers (cl : CooLex) (ing : Ingredient) :
    (cl.moveTo ing).ledgers = cl.ledgers := rfl

theorem CooLex.reset_getIng (cl : CooLex) (id : IngId) :
    cl.reset.getIng id = cl.getIng id := by
  cases id <;> rfl

theorem CooLex.reset_ledgers (cl : CooLex) : cl.reset.ledgers = cl.ledgers := rfl

theorem CooLex.setIng_root (cl : CooLex) (id : IngId) (ing : Ingredient) :
    (cl.setIng id ing).root = cl.root := by
  cases id <;> rfl

theorem CooLex.setIng_bowls_ne (cl : CooLex) (id : IngId) (ing : Ingredient)
    (h : id ≠ IngId.bowl) : (cl.setIng id ing).bowls = cl.bowls := by
  cases id
  · exact absurd rfl h
  all_goals rfl

theorem CooLex.getIng_setIng_ne (cl : CooLex) (id id2 : IngId) (ing : Ingredient)
    (h : id2 ≠ id) : (cl.setIng id ing).getIng id2 = cl.getIng id2 := by
  cases id <;> cases id2 <;>
    simp_all [CooLex.setIng, CooLex.getIng] <;>
    rw [List.getElem?_set_ne (fun hEq => h (by rw [hEq]))]

theorem CooLex.getIng_setIng_self (cl : CooLex) (id : IngId) (ing ing2 : Ingredient)
    (h : cl.getIng id = some ing) : (cl.setIng id ing2).getIng id = some ing2 := by
  cases id <;>
    simp_all [CooLex.setIng, CooLex.getIng] <;>
    rw [List.getElem?_set_self (List.getElem?_eq_some_iff.mp h).1]

/-- Exhaustive description of one `traverse_and_prepare` step: either the node
carries an action and a resolvable ingredient — and the step moves there and
then either consumes (success) or fails with `InsufficientStockError` after
the move — or the step does nothing. -/
theorem traverseAndPrepare_cases (cl : CooLex) (n : CatNode) :
    (∃ id ing, n.ingredient = some id ∧ n.hasAction = true ∧ cl.getIng id = some ing ∧
      ((ing.quantity ≤ ing.stock ∧
          cl.traverseAndPrepare n =
            ((cl.moveTo ing).setIng id { ing with stock := ing.stock - ing.quantity },
             none)) ∨
       (ing.stock < ing.quantity ∧
          cl.traverseAndPrepare n =
            (cl.moveTo ing, some (Err.insufficientStock ing.name))))) ∨
    ((n.ingredient = none ∨ n.hasAction = false ∨
        (∃ id, n.ingredient = some id ∧ cl.getIng id = none)) ∧
      cl.traverseAndPrepare n = (cl, none)) := by
  cases hi : n.ingredient with
  | none =>
    refine Or.inr ⟨Or.inl rfl, ?_⟩
    simp only [CooLex.traverseAndPrepare, hi]
  | some id =>
    cases ha : n.hasAction with
    | false =>
      refine Or.inr ⟨Or.inr (Or.inl rfl), ?_⟩
      simp only [CooLex.traverseAndPrepare, hi, ha]
    | true =>
      cases hg : cl.getIng id with
      | none =>
        refine Or.inr ⟨Or.inr (Or.inr ⟨id, rfl, hg⟩), ?_⟩
        simp only [CooLex.traverseAndPrepare, hi, ha, hg]
      | some ing =>
        by_cases hq : ing.quantity ≤ ing.stock
        · refine Or.inl ⟨id, ing, rfl, rfl, hg, Or.inl ⟨hq, ?_⟩⟩
          simp only [CooLex.traverseAndPrepare, hi, ha, hg,
            Ingredient.use_fst_of_ok ing hq]
        · refine Or.inl ⟨id, ing, rfl, rfl, hg, Or.inr ⟨not_le.mp hq, ?_⟩⟩
          simp only [CooLex.traverseAndPrepare, hi, ha, hg,
            Ingredient.use_fst_of_fail ing (not_le.mp hq)]

theorem traverseAndPrepare_root (cl : CooLex) (n : CatNode) :
    (cl.traverseAndPrepare n).1.root = cl.root := by
  rcases traverseAndPrepare_cases cl n with
    ⟨id, ing, _, _, _, ⟨_, heq⟩ | ⟨_, heq⟩⟩ | ⟨_, heq⟩ <;>
    rw [heq]
  · rw [CooLex.setIng_root]
    rfl
  · rfl

/-- A step on a node that does not reference ingredient `id` leaves the
ingredient object named `id` unchanged. -/
theorem traverseAndPrepare_getIng_ne (cl : CooLex) (n : CatNode) (id : IngId)
    (h : ∀ id2, n.ingredient = some id2 → id ≠ id2) :
    (cl.traverseAndPrepare n).1.getIng id = cl.getIng id := by
  rcases traverseAndPrepare_cases cl n with
    ⟨id2, ing, hi, _, _, ⟨_, heq⟩ | ⟨_, heq⟩⟩ | ⟨_, heq⟩ <;> rw [heq]
  · rw [CooLex.getIng_setIng_ne _ _ _ _ (h id2 hi), CooLex.moveTo_getIng]
  · exact CooLex.moveTo_getIng cl ing id

theorem traverseAndPrepare_bowls (cl : CooLex) (n : CatNode)
    (h : n.ingredient ≠ some IngId.bowl) :
    (cl.traverseAndPrepare n).1.bowls = cl.bowls := by
  have h2 : ∀ id2, n.ingredient = some id2 → IngId.bowl ≠ id2 := by
    intro id2 hi2 hEq
    exact h (hEq ▸ hi2)
  have := traverseAndPrepare_getIng_ne cl n IngId.bowl h2
  simpa [CooLex.getIng] using this

/-- Every ingredient keeps its position (and the ledger lists their lengths)
across a step: only `stock` is ever written. -/
theorem traverseAndPrepare_posOf (cl : CooLex) (n : CatNode) (id : IngId) :
    (cl.traverseAndPrepare n).1.posOf id = cl.posOf id := by
  rcases traverseAndPrepare_cases cl n with
    ⟨id2, ing, _, _, hg, ⟨_, heq⟩ | ⟨_, heq⟩⟩ | ⟨_, heq⟩ <;>
    rw [CooLex.posOf, CooLex.posOf, heq]
  · by_cases hid : id = id2
    · subst hid
      rw [CooLex.getIng_setIng_self _ id _ _ (by rw [CooLex.moveTo_getIng]; exact hg), hg]
      rfl
    · rw [CooLex.getIng_setIng_ne _ _ _ _ hid, CooLex.moveTo_getIng]
  · rw [CooLex.moveTo_getIng]

theorem traverseAndPrepare_stationOf (cl cl2 : CooLex)
    (h : ∀ id, cl2.posOf id = cl.posOf id) (m : CatNode) :
    stationOf cl2 m = stationOf cl m := by
  rw [stationOf, stationOf]
  cases m.ingredient with
  | none => rfl
  | some id =>
    cases m.hasAction with
    | false => rfl
    | true => exact h id

/-! ## Lemmas about the traversal loop -/

theorem traversePath_append (cl : CooLex) (xs ys : List CatNode) :
    cl.traversePath (xs ++ ys) =
      match cl.traversePath xs with
      | (cl2, none) => cl2.traversePath ys
      | (cl2, some e) => (cl2, some e) := by
  induction xs generalizing cl with
  | nil => rfl
  | cons n rest ih =>
    rw [List.cons_append, CooLex.traversePath, CooLex.traversePath]
    rcases cl.traverseAndPrepare n with ⟨cl2, _ | e⟩
    · exact ih cl2
    · rfl

/-- Traversal never touches an ingredient that no traversed node references. -/
theorem traversePath_getIng_ne (ns : List CatNode) (cl : CooLex) (id : IngId)
    (h : ∀ n ∈ ns, ∀ id2, n.ingredient = some id2 → id ≠ id2) :
    (cl.traversePath ns).1.getIng id = cl.getIng id := by
  induction ns generalizing cl with
  | nil => rfl
  | cons n rest ih =>
    rw [CooLex.traversePath]
    rcases hstep : cl.traverseAndPrepare n with ⟨cl2, e⟩
    have hne : cl2.getIng id = cl.getIng id := by
      have := traverseAndPrepare_getIng_ne cl n id
        (h n (List.mem_cons_self n rest))
      rw [hstep] at this
      exact this
    cases e with
    | none =>
      rw [ih cl2 fun m hm => h m (List.mem_cons_of_mem n hm)]
      exact hne
    | some e => exact hne

theorem traversePath_bowls (ns : List CatNode) (cl : CooLex)
    (h : ∀ n ∈ ns, n.ingredient ≠ some IngId.bowl) :
    (cl.traversePath ns).1.bowls = cl.bowls := by
  induction ns generalizing cl with
  | nil => rfl
  | cons n rest ih =>
    rw [CooLex.traversePath]
    rcases hstep : cl.traverseAndPrepare n with ⟨cl2, e⟩
    have hb : cl2.bowls = cl.bowls := by
      have := traverseAndPrepare_bowls cl n (h n (List.mem_cons_self n rest))
      rw [hstep] at this
      exact this
    cases e with
    | none =>
      rw [ih cl2 fun m hm => h m (List.mem_cons_of_mem n hm)]
      exact hb
    | some e => exact hb

theorem CooLex.setIng_totalDistance (cl : CooLex) (id : IngId) (ing : Ingredient) :
    (cl.setIng id ing).totalDistance = cl.totalDistance := by
  cases id <;> rfl

theorem CooLex.setIng_currentPosition (cl : CooLex) (id : IngId) (ing : Ingredient) :
    (cl.setIng id ing).currentPosition = cl.currentPosition := by
  cases id <;> rfl

theorem CooLex.moveTo_totalDistance (cl : CooLex) (ing : Ingredient) :
    (cl.moveTo ing).totalDistance =
      cl.totalDistance + distance cl.currentPosition ing.position := rfl

theorem CooLex.moveTo_currentPosition (cl : CooLex) (ing : Ingredient) :
    (cl.moveTo ing).currentPosition = ing.position := rfl

theorem CooLex.reset_root (cl : CooLex) : cl.reset.root = cl.root := rfl

theorem getElem?_eq_some_getD {α : Type} [Inhabited α] (l : List α) (i : Nat)
    (h : i < l.length) : l[i]? = some (l.getD i default) := by
  rw [List.getElem?_eq_getElem h, List.getD_eq_getElem?_getD, List.getElem?_eq_getElem h]
  rfl

theorem stationOf_eq_some (cl : CooLex) (n : CatNode) (q : Int × Int)
    (h : stationOf cl n = some q) :
    ∃ id ing, n.ingredient = some id ∧ n.hasAction = true ∧
      cl.getIng id = some ing ∧ ing.position = q := by
  rw [stationOf] at h
  cases hi : n.ingredient with
  | none => rw [hi] at h; simp at h
  | some id =>
    cases ha : n.hasAction with
    | false => rw [hi, ha] at h; simp at h
    | true =>
      rw [hi, ha] at h
      simp only at h
      cases hg : cl.getIng id with
      | none => rw [hg] at h; simp at h
      | some ing =>
        rw [hg] at h
        simp only [Option.map_some'] at h
        exact ⟨id, ing, rfl, rfl, hg, Option.some.inj h⟩

theorem stationsOf_congr (cl cl2 : CooLex) (h : ∀ id, cl2.posOf id = cl.posOf id)
    (ns : List CatNode) : stationsOf cl2 ns = stationsOf cl ns := by
  induction ns with
  | nil => rfl
  | cons n rest ih =>
    rw [stationsOf, stationsOf, traverseAndPrepare_stationOf cl cl2 h n, ih]

theorem stationsOf_cons_some (cl : CooLex) (n : CatNode) (ns : List CatNode)
    (q : Int × Int) (qs : List (Int × Int))
    (h1 : stationOf cl n = some q) (h2 : stationsOf cl ns = some qs) :
    stationsOf cl (n :: ns) = some (q :: qs) := by
  rw [stationsOf, h1, h2]

theorem stationsOf_append_some (cl : CooLex) (xs ys : List CatNode)
    (qs rs : List (Int × Int))
    (h1 : stationsOf cl xs = some qs) (h2 : stationsOf cl ys = some rs) :
    stationsOf cl (xs ++ ys) = some (qs ++ rs) := by
  induction xs generalizing qs with
  | nil =>
    rw [stationsOf] at h1
    obtain rfl := Option.some.inj h1
    simpa using h2
  | cons n rest ih =>
    rw [stationsOf] at h1
    cases hst : stationOf cl n with
    | none => rw [hst] at h1; simp at h1
    | some q =>
      rw [hst] at h1
      cases hsts : stationsOf cl rest with
      | none => rw [hsts] at h1; simp at h1
      | some qs' =>
        rw [hsts] at h1
        simp only at h1
        obtain rfl := Option.some.inj h1
        rw [List.cons_append, stationsOf_cons_some cl n (rest ++ ys) q (qs' ++ rs) hst
          (ih qs' hsts)]
        rfl

/-- Distance accounting for a successful traversal: the head visits exactly
the stations of the node list in order, accumulating the Euclidean distance
between consecutive stops, and ends at the last station. -/
theorem traversePath_dist (ns : List CatNode) : ∀ (cl : CooLex) (qs : List (Int × Int)),
    stationsOf cl ns = some qs →
    (cl.traversePath ns).2 = none →
    (cl.traversePath ns).1.totalDistance =
        cl.totalDistance + pairSum cl.currentPosition qs ∧
      (cl.traversePath ns).1.currentPosition = qs.getLastD cl.currentPosition := by
  induction ns with
  | nil =>
    intro cl qs h _
    rw [stationsOf] at h
    obtain rfl := Option.some.inj h
    refine ⟨?_, rfl⟩
    rw [pairSum, add_zero]
    rfl
  | cons n rest ih =>
    intro cl qs h hsucc
    rw [stationsOf] at h
    cases hst : stationOf cl n with
    | none => rw [hst] at h; simp at h
    | some q =>
      rw [hst] at h
      cases hsts : stationsOf cl rest with
      | none => rw [hsts] at h; simp at h
      | some qs' =>
        rw [hsts] at h
        simp only at h
        obtain rfl := Option.some.inj h
        obtain ⟨id, ing, hi, ha, hg, hq⟩ := stationOf_eq_some cl n q hst
        rcases traverseAndPrepare_cases cl n with
          ⟨id2, ing2, hi2, _, hg2, ⟨_, heq⟩ | ⟨_, heq⟩⟩ | ⟨hnone, heq⟩
        · -- successful consumption at this node
          have hId : id = id2 := Option.some.inj (hi ▸ hi2)
          subst hId
          have hIng : ing = ing2 := Option.some.inj (hg ▸ hg2)
          subst hIng
          have hstep : cl.traversePath (n :: rest) =
              ((cl.moveTo ing).setIng id
                { ing with stock := ing.stock - ing.quantity }).traversePath rest := by
            rw [CooLex.traversePath, heq]
          set cl3 := (cl.moveTo ing).setIng id
            { ing with stock := ing.stock - ing.quantity } with hcl3
          have hpos : ∀ id', cl3.posOf id' = cl.posOf id' := by
            intro id'
            have := traverseAndPrepare_posOf cl n id'
            rw [heq] at this
            exact this
          have hsts3 : stationsOf cl3 rest = some qs' := by
            rw [stationsOf_congr cl cl3 hpos rest, hsts]
          have hsucc3 : (cl3.traversePath rest).2 = none := by
            rw [hstep] at hsucc
            exact hsucc
          obtain ⟨ihd, ihp⟩ := ih cl3 qs' hsts3 hsucc3
          have hd3 : cl3.totalDistance = cl.totalDistance + distance cl.currentPosition q := by
            rw [hcl3, CooLex.setIng_totalDistance, CooLex.moveTo_totalDistance, hq]
          have hp3 : cl3.currentPosition = q := by
            rw [hcl3, CooLex.setIng_currentPosition, CooLex.moveTo_currentPosition, hq]
          constructor
          · rw [hstep, ihd, hd3, hp3, pairSum, add_assoc]
          · rw [hstep, ihp, hp3, List.getLastD_cons]
        · -- failed consumption: contradicts overall success
          have : (cl.traversePath (n :: rest)).2 = some (Err.insufficientStock ing2.name) := by
            rw [CooLex.traversePath, heq]
          rw [hsucc] at this
          exact absurd this (by simp)
        · -- no-op step: contradicts the node having a station
          rcases hnone with hn | hn | ⟨id', hi', hg'⟩
          · rw [hn] at hi; exact absurd hi (by simp)
          · rw [hn] at ha; exact absurd ha (by simp)
          · have hId : id = id' := Option.some.inj (hi ▸ hi')
            subst hId
            rw [hg'] at hg
            exact absurd hg (by simp)

/-- If a prefix of the path traverses successfully and consuming the next
node's ingredient fails, the whole traversal stops right there: it returns
the prefix state plus the final move, the `InsufficientStockError` of that
ingredient, and never reaches the remaining nodes. -/
theorem traversePath_fail_at (cl : CooLex) (pre : List CatNode) (n : CatNode)
    (post : List CatNode) (id : IngId) (ing : Ingredient)
    (hpre : (cl.traversePath pre).2 = none)
    (hi : n.ingredient = some id) (ha : n.hasAction = true)
    (hg : (cl.traversePath pre).1.getIng id = some ing)
    (hfail : ing.stock < ing.quantity) :
    cl.traversePath (pre ++ n :: post) =
      ((cl.traversePath pre).1.moveTo ing, some (Err.insufficientStock ing.name)) := by
  rw [traversePath_append]
  rcases hp : cl.traversePath pre with ⟨cl2, e⟩
  rw [hp] at hpre hg
  simp only at hpre hg
  subst hpre
  simp only
  rcases traverseAndPrepare_cases cl2 n with
    ⟨id2, ing2, hi2, _, hg2, ⟨hok, heq⟩ | ⟨_, heq⟩⟩ | ⟨hnone, heq⟩
  · have hId : id = id2 := Option.some.inj (hi ▸ hi2)
    subst hId
    have hIng : ing = ing2 := Option.some.inj (hg ▸ hg2)
    subst hIng
    exact absurd hok (not_le.mpr hfail)
  · have hId : id = id2 := Option.some.inj (hi ▸ hi2)
    subst hId
    have hIng : ing = ing2 := Option.some.inj (hg ▸ hg2)
    subst hIng
    rw [CooLex.traversePath, heq]
  · rcases hnone with hn | hn | ⟨id', hi', hg'⟩
    · rw [hn] at hi; exact absurd hi (by simp)
    · rw [hn] at ha; exact absurd ha (by simp)
    · have hId : id = id' := Option.some.inj (hi ▸ hi')
      subst hId
      rw [hg'] at hg
      exact absurd hg (by simp)

/-! ## Lemmas about `prepare_bowl` -/

/-- The `topping_indices` value seen by the caller after `prepare_bowl` is
whatever the path-composition lines left in it. -/
theorem prepareBowl_ts (cl : CooLex) (b p s : Nat) (ts : List Nat) :
    (cl.prepareBowl b p ts s).2.1 = (resolvePath cl.root b p ts s).1 := by
  rcases hres : resolvePath cl.root b p ts s with ⟨ts2, res⟩
  have h' : resolvePath cl.reset.root b p ts s = (ts2, res) := hres
  cases res with
  | error e => simp only [CooLex.prepareBowl, h']
  | ok path =>
    simp only [CooLex.prepareBowl, h']
    rcases (cl.reset.moveTo (Ingredient.mk "Bowl Dispenser" 0 0 0
        cl.reset.bowlDispenserPosition)).traversePath path with ⟨cl2, _ | e⟩ <;> rfl

/-- Whenever the base and protein lookups succeed, the caller's list comes
back sorted descending, whatever happens afterwards. -/
theorem resolvePath_fst (bw : Ingredient) (bs ps tp sc : List Ingredient)
    (b p s : Nat) (ts : List Nat) (hb : b < bs.length) (hp : p < ps.length) :
    (resolvePath (createTree bw bs ps tp sc) b p ts s).1 = sortDesc ts := by
  by_cases hl : ∀ t ∈ sortDesc ts, t < tp.length
  case neg =>
    push_neg at hl
    rcases hl with ⟨t, htmem, htge⟩
    rcases lookupAll_err (ingredientNodes IngId.topping tp (ingredientNodes IngId.sauce sc []))
        (sortDesc ts) ⟨t, htmem, by rw [ingredientNodes_length]; exact htge⟩
      with ⟨e, he, rfl⟩
    simp only [resolvePath, createTree, CatNode.children, listIdx_cons_zero,
      listIdx_baseNodes bs ps tp sc b hb,
      proteinNodesOf, toppingNodesOf, sauceNodesOf,
      listIdx_ingredientNodes IngId.protein ps _ p hp, he]
  case pos =>
    have hLA : lookupAll (ingredientNodes IngId.topping tp (ingredientNodes IngId.sauce sc []))
        (sortDesc ts) =
        Except.ok ((sortDesc ts).map fun t =>
          (ingredientNodes IngId.topping tp (ingredientNodes IngId.sauce sc [])).getD
            t default) :=
      lookupAll_ok _ _ fun t ht => by
        rw [ingredientNodes_length]; exact hl t ht
    rcases hd : sortDesc ts with _ | ⟨t0, rest⟩
    · simp only [resolvePath, createTree, CatNode.children, listIdx_cons_zero,
        listIdx_baseNodes bs ps tp sc b hb,
        proteinNodesOf, toppingNodesOf, sauceNodesOf,
        listIdx_ingredientNodes IngId.protein ps _ p hp,
        hd, hd ▸ hLA, List.map_nil, listIdx_nil]
    · have ht0 : t0 < tp.length := hl t0 (hd ▸ List.mem_cons_self t0 rest)
      by_cases hs : s < sc.length
      · simp only [resolvePath, createTree, CatNode.children, listIdx_cons_zero,
          listIdx_baseNodes bs ps tp sc b hb,
          proteinNodesOf, toppingNodesOf, sauceNodesOf,
          listIdx_ingredientNodes IngId.protein ps _ p hp,
          hd, hd ▸ hLA, List.map_cons, listIdx_cons_zero,
          ingredientNodes_getD IngId.topping tp _ t0 ht0,
          listIdx_ingredientNodes IngId.sauce sc _ s hs]
      · simp only [resolvePath, createTree, CatNode.children, listIdx_cons_zero,
          listIdx_baseNodes bs ps tp sc b hb,
          proteinNodesOf, toppingNodesOf, sauceNodesOf,
          listIdx_ingredientNodes IngId.protein ps _ p hp,
          hd, hd ▸ hLA, List.map_cons, listIdx_cons_zero,
          ingredientNodes_getD IngId.topping tp _ t0 ht0,
          listIdx_ingredientNodes_err IngId.sauce sc _ s (not_lt.mp hs)]

/-- Which ingredient references occur on a resolved path. -/
theorem path_nodes_ingredient (bs ps tp sc : List Ingredient) (b p s : Nat)
    (l : List Nat) (n : CatNode)
    (hn : n ∈ (CatNode.mk (bs.getD b default).name (some (IngId.base b)) true true
        (proteinNodesOf ps tp sc) ::
      CatNode.mk (ps.getD p default).name (some (IngId.protein p)) true true
        (toppingNodesOf tp sc) ::
      ((l.map fun t => CatNode.mk (tp.getD t default).name (some (IngId.topping t)) true true
          (sauceNodesOf sc)) ++
       [CatNode.mk (sc.getD s default).name (some (IngId.sauce s)) true true []]))) :
    n.ingredient = some (IngId.base b) ∨ n.ingredient = some (IngId.protein p) ∨
      (∃ t ∈ l, n.ingredient = some (IngId.topping t)) ∨
      n.ingredient = some (IngId.sauce s) := by
  rcases List.mem_cons.mp hn with rfl | hn
  · exact Or.inl rfl
  rcases List.mem_cons.mp hn with rfl | hn
  · exact Or.inr (Or.inl rfl)
  rcases List.mem_append.mp hn with hn | hn
  · rcases List.mem_map.mp hn with ⟨t, htl, rfl⟩
    exact Or.inr (Or.inr (Or.inl ⟨t, htl, rfl⟩))
  · obtain rfl := List.mem_singleton.mp hn
    exact Or.inr (Or.inr (Or.inr rfl))

/-- Frame property of a whole order: an ingredient that is not the selected
base, protein, a selected topping, or the selected sauce is left untouched
by `prepare_bowl`. -/
theorem prepareBowl_getIng_frame (cl : CooLex)
    (hroot : cl.root = createTree cl.bowls cl.bases cl.proteins cl.toppings cl.sauces)
    (b p s : Nat) (ts : List Nat) (id : IngId)
    (hb : id ≠ IngId.base b) (hp : id ≠ IngId.protein p)
    (ht : ∀ t ∈ ts, id ≠ IngId.topping t) (hs : id ≠ IngId.sauce s) :
    ((cl.prepareBowl b p ts s).1).getIng id = cl.getIng id := by
  rcases hres : resolvePath cl.root b p ts s with ⟨ts2, res⟩
  cases res with
  | error e =>
    have h' : resolvePath cl.reset.root b p ts s = (ts2, Except.error e) := hres
    simp only [CooLex.prepareBowl, h']
    exact CooLex.reset_getIng cl id
  | ok path =>
    have hres2 := hres
    rw [hroot] at hres2
    obtain ⟨hb', hp', hne, hts, hs', hts2, hpath⟩ :=
      resolvePath_ok_inv _ _ _ _ _ b p s ts ts2 path hres2
    have h' : resolvePath cl.reset.root b p ts s = (ts2, Except.ok path) := hres
    simp only [CooLex.prepareBowl, h']
    have hnodes : ∀ n ∈ path, ∀ id2, n.ingredient = some id2 → id ≠ id2 := by
      intro n hn id2 hid2
      rw [hpath] at hn
      rcases path_nodes_ingredient cl.bases cl.proteins cl.toppings cl.sauces b p s
        (sortDesc ts) n hn with hcase | hcase | ⟨t, htmem, hcase⟩ | hcase <;>
        rw [hcase] at hid2
      · exact (Option.some.inj hid2) ▸ hb
      · exact (Option.some.inj hid2) ▸ hp
      · exact (Option.some.inj hid2) ▸ ht t ((sortDesc_mem ts t).mp htmem)
      · exact (Option.some.inj hid2) ▸ hs
    rcases htr : (cl.reset.moveTo (Ingredient.mk "Bowl Dispenser" 0 0 0
        cl.reset.bowlDispenserPosition)).traversePath path with ⟨cl2, e⟩
    have hframe : cl2.getIng id = cl.getIng id := by
      have := traversePath_getIng_ne path (cl.reset.moveTo (Ingredient.mk "Bowl Dispenser"
        0 0 0 cl.reset.bowlDispenserPosition)) id hnodes
      rw [htr] at this
      simp only at this
      rw [this, CooLex.moveTo_getIng, CooLex.reset_getIng]
    cases e with
    | none => exact (CooLex.moveTo_getIng cl2 _ id).trans hframe
    | some e => exact hframe

/-! ## Claim theorems about `prepare_bowl` -/

/-- C9 (confirmed): the bowls ledger is never consumed by an order: the
resolved path only contains base, protein, topping and sauce nodes; the move
to the Bowl Dispenser is made to a freshly constructed zero-stock ingredient,
so the catalog tree's Bowl node — the only holder of the bowls ingredient and
its consume action — is never executed, and the bowls ledger entry is
unchanged by every order. -/
theorem C9_bowls_never_consumed (cl : CooLex)
    (hroot : cl.root = createTree cl.bowls cl.bases cl.proteins cl.toppings cl.sauces)
    (b p s : Nat) (ts : List Nat) :
    ((cl.prepareBowl b p ts s).1).bowls = cl.bowls := by
  have h := prepareBowl_getIng_frame cl hroot b p s ts IngId.bowl
    (by intro hc; cases hc) (by intro hc; cases hc)
    (fun t _ => by intro hc; cases hc) (by intro hc; cases hc)
  rw [CooLex.getIng, CooLex.getIng] at h
  exact Option.some.inj h

theorem C9_bowls_never_consumed_witness :
    (exCl.root = createTree exCl.bowls exCl.bases exCl.proteins exCl.toppings exCl.sauces) ∧
    ((exCl.prepareBowl 0 0 [0, 1] 0).1).bowls = exCl.bowls :=
  ⟨rfl, C9_bowls_never_consumed exCl rfl 0 0 0 [0, 1]⟩

/-- C1 (counterexample): an order for base 0 succeeds and leaves base 1's
stock unchanged at 10 (with quantity 10 ≤ stock 10, a consumption would have
lowered it to 0), and likewise leaves topping 1 untouched at 100 — refuting
the claim that every base and every topping of the catalog is consumed on
every order. -/
theorem C1_full_traversal_counterexample :
    (exCl.prepareBowl 0 0 [0] 0).2.2 = Except.ok () ∧
    ((exCl.prepareBowl 0 0 [0] 0).1.bases.map Ingredient.stock) = [90, 10] ∧
    (exCl.bases.map Ingredient.stock) = [100, 10] ∧
    ((exCl.prepareBowl 0 0 [0] 0).1.toppings.map Ingredient.stock) = [90, 100] ∧
    (exCl.toppings.map Ingredient.stock) = [100, 100] := by
  refine ⟨by decide, by decide, by decide, by decide, by decide⟩

/-- C1 (amended): `prepare_bowl` traverses only the resolved selection path —
the selected base, the selected protein, the selected toppings and the
selected sauce; the stock of every other ingredient in the catalog is left
unchanged, and the resolved path is the traversal sequence actually
executed (it is not discarded). -/
theorem C1_targeted_traversal (cl : CooLex)
    (hroot : cl.root = createTree cl.bowls cl.bases cl.proteins cl.toppings cl.sauces)
    (b p s : Nat) (ts : List Nat) (id : IngId)
    (hid : id ∉ selectedIds b p ts s) :
    ((cl.prepareBowl b p ts s).1).stockOf id = cl.stockOf id := by
  have hb : id ≠ IngId.base b := fun h =>
    hid (h ▸ List.mem_cons_self _ _)
  have hp : id ≠ IngId.protein p := fun h =>
    hid (h ▸ List.mem_cons_of_mem _ (List.mem_cons_self _ _))
  have ht : ∀ t ∈ ts, id ≠ IngId.topping t := fun t htm h =>
    hid (h ▸ List.mem_cons_of_mem _ (List.mem_cons_of_mem _
      (List.mem_append_left _ (List.mem_map_of_mem IngId.topping htm))))
  have hs : id ≠ IngId.sauce s := fun h =>
    hid (h ▸ List.mem_cons_of_mem _ (List.mem_cons_of_mem _
      (List.mem_append_right _ (List.mem_singleton.mpr rfl))))
  rw [CooLex.stockOf, CooLex.stockOf,
    prepareBowl_getIng_frame cl hroot b p s ts id hb hp ht hs]

theorem C1_targeted_traversal_witness :
    (IngId.base 1 ∉ selectedIds 0 0 [0] 0) ∧
    ((exCl.prepareBowl 0 0 [0] 0).1).stockOf (IngId.base 1) = exCl.stockOf (IngId.base 1) :=
  ⟨by decide, C1_targeted_traversal exCl rfl 0 0 0 [0] (IngId.base 1) (by decide)⟩

/-- C4 (confirmed): a selection with any index out of the bounds of the
corresponding catalog list makes `prepare_bowl` fail with `IndexError`, and
the failure happens during path composition, before any stock is touched: all
five ingredient ledgers are exactly as before the call. -/
theorem C4_invalid_index (cl : CooLex)
    (hroot : cl.root = createTree cl.bowls cl.bases cl.proteins cl.toppings cl.sauces)
    (b p s : Nat) (ts : List Nat)
    (h : cl.bases.length ≤ b ∨ cl.proteins.length ≤ p ∨
      (∃ t ∈ ts, cl.toppings.length ≤ t) ∨ cl.sauces.length ≤ s) :
    (cl.prepareBowl b p ts s).2.2 = Except.error Err.indexOutOfRange ∧
    ((cl.prepareBowl b p ts s).1).ledgers = cl.ledgers := by
  have herr := resolvePath_err cl.bowls cl.bases cl.proteins cl.toppings cl.sauces b p s ts h
  rcases hres : resolvePath (createTree cl.bowls cl.bases cl.proteins cl.toppings cl.sauces)
      b p ts s with ⟨ts2, res⟩
  rw [hres] at herr
  simp only at herr
  subst herr
  have h' : resolvePath cl.reset.root b p ts s = (ts2, Except.error Err.indexOutOfRange) := by
    rw [CooLex.reset_root, hroot]
    exact hres
  simp only [CooLex.prepareBowl, h']
  exact ⟨trivial, rfl⟩

theorem C4_invalid_index_witness :
    (exCl.bases.length ≤ 99 ∨ exCl.proteins.length ≤ 0 ∨
      (∃ t ∈ [0, 1], exCl.toppings.length ≤ t) ∨ exCl.sauces.length ≤ 0) ∧
    ((exCl.prepareBowl 99 0 [0, 1] 0).2.2 = Except.error Err.indexOutOfRange ∧
      ((exCl.prepareBowl 99 0 [0, 1] 0).1).ledgers = exCl.ledgers) :=
  ⟨by decide, C4_invalid_index exCl rfl 99 0 0 [0, 1] (by decide)⟩

/-- C10 (counterexample): a call whose base index is out of range raises
before reaching the sort at line 107, so the caller's topping list is *not*
reordered — refuting the claim that every call (returning or raising) leaves
the list sorted descending. -/
theorem C10_mutation_counterexample :
    (exCl.prepareBowl 99 0 [0, 1] 0).2.2 = Except.error Err.indexOutOfRange ∧
    (exCl.prepareBowl 99 0 [0, 1] 0).2.1 = [0, 1] ∧
    sortDesc [0, 1] = [1, 0] := by
  refine ⟨by decide, by decide, by decide⟩

/-- C10 (amended): whenever the base and protein lookups succeed (execution
reaches `topping_indices.sort(reverse=True)`), the caller's list is sorted in
place into descending order and this reordering persists after the call,
whether it returns normally or raises later. -/
theorem C10_sort_mutation (cl : CooLex)
    (hroot : cl.root = createTree cl.bowls cl.bases cl.proteins cl.toppings cl.sauces)
    (b p s : Nat) (ts : List Nat)
    (hb : b < cl.bases.length) (hp : p < cl.proteins.length) :
    (cl.prepareBowl b p ts s).2.1 = sortDesc ts := by
  rw [prepareBowl_ts, hroot,
    resolvePath_fst cl.bowls cl.bases cl.proteins cl.toppings cl.sauces b p s ts hb hp]

theorem C10_sort_mutation_witness :
    (0 < exCl.bases.length ∧ 0 < exCl.proteins.length) ∧
    (exCl.prepareBowl 0 0 [0, 1] 99).2.1 = sortDesc [0, 1] ∧
    sortDesc [0, 1] = [1, 0] ∧
    (exCl.prepareBowl 0 0 [0, 1] 99).2.2 = Except.error Err.indexOutOfRange :=
  ⟨⟨by decide, by decide⟩,
   C10_sort_mutation exCl rfl 0 0 99 [0, 1] (by decide) (by decide),
   by decide, by decide⟩

theorem getLast?_cons_cons_append {α : Type} (a b : α) (l : List α) (z : α) :
    (a :: b :: (l ++ [z])).getLast? = some z := by
  have h : a :: b :: (l ++ [z]) = (a :: b :: l) ++ [z] := by simp
  rw [h, List.getLast?_concat]

/-- C8 (confirmed): path resolution sorts the selected topping indices in
descending order before lookup, so the resolved path reads [selected base,
selected protein, toppings in descending index order, sauce]; the single
sauce node is the `sauceIndex`-th child of the first resolved topping node,
which is the highest-indexed selected topping; one sauce is shared whatever
the number of selected toppings. -/
theorem C8_path_shape (bw : Ingredient) (bs ps tp sc : List Ingredient)
    (b p s : Nat) (ts : List Nat)
    (hb : b < bs.length) (hp : p < ps.length) (hne : ts ≠ [])
    (hts : ∀ t ∈ ts, t < tp.length) (hs : s < sc.length) :
    ∃ pathNodes firstTopping sauceNode,
      resolvePath (createTree bw bs ps tp sc) b p ts s =
        (sortDesc ts, Except.ok pathNodes) ∧
      List.Sorted (fun x y => y ≤ x) (sortDesc ts) ∧
      List.Perm (sortDesc ts) ts ∧
      (∀ t ∈ ts, t ≤ (sortDesc ts).headI) ∧
      pathNodes.map CatNode.ingredient =
        some (IngId.base b) :: some (IngId.protein p) ::
          (((sortDesc ts).map fun t => some (IngId.topping t)) ++ [some (IngId.sauce s)]) ∧
      pathNodes[2]? = some firstTopping ∧
      firstTopping.ingredient = some (IngId.topping ((sortDesc ts).headI)) ∧
      pathNodes.getLast? = some sauceNode ∧
      firstTopping.children[s]? = some sauceNode := by
  obtain ⟨t0, rest, hd⟩ : ∃ t0 rest, sortDesc ts = t0 :: rest := by
    rcases h' : sortDesc ts with _ | ⟨t0, rest⟩
    · exact absurd h' (sortDesc_ne_nil ts hne)
    · exact ⟨t0, rest, rfl⟩
  refine ⟨_,
    CatNode.mk (tp.getD t0 default).name (some (IngId.topping t0)) true true (sauceNodesOf sc),
    CatNode.mk (sc.getD s default).name (some (IngId.sauce s)) true true [],
    resolvePath_ok bw bs ps tp sc b p s ts hb hp hne hts hs,
    sortDesc_sorted ts, sortDesc_perm ts, fun t ht => sortDesc_head_max ts t ht,
    ?_, ?_, ?_, ?_, ?_⟩
  · simp only [hd, List.map_cons, List.map_append, List.map_map, List.map_nil,
      CatNode.ingredient, Function.comp_def]
  · simp only [hd, List.map_cons, List.getElem?_cons_succ, List.cons_append,
      List.getElem?_cons_zero]
  · rw [CatNode.ingredient, hd, List.headI]
  · rw [hd, List.map_cons]
    exact getLast?_cons_cons_append _ _ _ _
  · rw [CatNode.children, sauceNodesOf,
      getElem?_eq_some_getD _ s (by rw [ingredientNodes_length]; exact hs),
      ingredientNodes_getD IngId.sauce sc _ s hs]

theorem C8_path_shape_witness :
    ((0 < exBases.length ∧ 0 < exProteins.length) ∧
      ([0, 1] ≠ ([] : List Nat) ∧ (∀ t ∈ [0, 1], t < exToppings.length) ∧
        0 < exSauces.length)) ∧
    (∃ pathNodes firstTopping sauceNode,
      resolvePath (createTree exBowls exBases exProteins exToppings exSauces) 0 0 [0, 1] 0 =
        (sortDesc [0, 1], Except.ok pathNodes) ∧
      List.Sorted (fun x y => y ≤ x) (sortDesc [0, 1]) ∧
      List.Perm (sortDesc [0, 1]) [0, 1] ∧
      (∀ t ∈ [0, 1], t ≤ (sortDesc [0, 1]).headI) ∧
      pathNodes.map CatNode.ingredient =
        some (IngId.base 0) :: some (IngId.protein 0) ::
          (((sortDesc [0, 1]).map fun t => some (IngId.topping t)) ++
            [some (IngId.sauce 0)]) ∧
      pathNodes[2]? = some firstTopping ∧
      firstTopping.ingredient = some (IngId.topping ((sortDesc [0, 1]).headI)) ∧
      pathNodes.getLast? = some sauceNode ∧
      firstTopping.children[0]? = some sauceNode) :=
  ⟨⟨⟨by decide, by decide⟩, ⟨by decide, by decide, by decide⟩⟩,
   C8_path_shape exBowls exBases exProteins exToppings exSauces 0 0 0 [0, 1]
     (by decide) (by decide) (by decide) (by decide) (by decide)⟩

/-- C7 (confirmed): when the resolved path splits as `pre ++ n :: post` and
consuming `n`'s ingredient fails (its stock is below its per-use quantity)
after the prefix was processed, `prepare_bowl` aborts right there and
surfaces `InsufficientStockError` naming that ingredient as the order
result; the final ledgers are exactly the ledgers after the successful
prefix — the prefix's consumptions are kept (no rollback) and no node of
`post` is touched. -/
theorem C7_abort_no_rollback (cl : CooLex) (b p s : Nat) (ts ts2 : List Nat)
    (pre : List CatNode) (n : CatNode) (post : List CatNode) (id : IngId)
    (ing : Ingredient)
    (hres : resolvePath cl.root b p ts s = (ts2, Except.ok (pre ++ n :: post)))
    (hpre : ((cl.reset.moveTo (Ingredient.mk "Bowl Dispenser" 0 0 0
      cl.reset.bowlDispenserPosition)).traversePath pre).2 = none)
    (hi : n.ingredient = some id) (ha : n.hasAction = true)
    (hg : ((cl.reset.moveTo (Ingredient.mk "Bowl Dispenser" 0 0 0
      cl.reset.bowlDispenserPosition)).traversePath pre).1.getIng id = some ing)
    (hfail : ing.stock < ing.quantity) :
    (cl.prepareBowl b p ts s).2.2 = Except.error (Err.insufficientStock ing.name) ∧
    ((cl.prepareBowl b p ts s).1).ledgers =
      (((cl.reset.moveTo (Ingredient.mk "Bowl Dispenser" 0 0 0
        cl.reset.bowlDispenserPosition)).traversePath pre).1).ledgers := by
  have h' : resolvePath cl.reset.root b p ts s = (ts2, Except.ok (pre ++ n :: post)) := hres
  have hfa := traversePath_fail_at (cl.reset.moveTo (Ingredient.mk "Bowl Dispenser" 0 0 0
    cl.reset.bowlDispenserPosition)) pre n post id ing hpre hi ha hg hfail
  simp only [CooLex.prepareBowl, h', hfa]
  exact ⟨trivial, CooLex.moveTo_ledgers _ _⟩

theorem C7_abort_no_rollback_witness :
    ((5 : Int) < 10) ∧
    (exClLow.prepareBowl 0 0 [0] 0).2.2 =
      Except.error (Err.insufficientStock "P0") ∧
    ((exClLow.prepareBowl 0 0 [0] 0).1).ledgers =
      (((exClLow.reset.moveTo (Ingredient.mk "Bowl Dispenser" 0 0 0
        exClLow.reset.bowlDispenserPosition)).traversePath [exLowBaseNode]).1).ledgers :=
  ⟨by decide,
   (C7_abort_no_rollback exClLow 0 0 0 [0] [0] [exLowBaseNode] exLowProteinNode
     [exLowToppingNode, exLowSauceNode] (IngId.protein 0)
     ⟨"P0", 100, 5, 10, (10, 0)⟩ rfl rfl rfl rfl rfl (by decide)).1,
   (C7_abort_no_rollback exClLow 0 0 0 [0] [0] [exLowBaseNode] exLowProteinNode
     [exLowToppingNode, exLowSauceNode] (IngId.protein 0)
     ⟨"P0", 100, 5, 10, (10, 0)⟩ rfl rfl rfl rfl rfl (by decide)).2⟩

/-! ## Distance bookkeeping for claim C5 -/

theorem CooLex.reset_totalDistance (cl : CooLex) : cl.reset.totalDistance = 0 := rfl

theorem CooLex.reset_currentPosition (cl : CooLex) :
    cl.reset.currentPosition = cl.initialPosition := rfl

theorem CooLex.setIng_finalPosition (cl : CooLex) (id : IngId) (ing : Ingredient) :
    (cl.setIng id ing).finalPosition = cl.finalPosition := by
  cases id <;> rfl

theorem traverseAndPrepare_finalPosition (cl : CooLex) (n : CatNode) :
    (cl.traverseAndPrepare n).1.finalPosition = cl.finalPosition := by
  rcases traverseAndPrepare_cases cl n with
    ⟨id, ing, _, _, _, ⟨_, heq⟩ | ⟨_, heq⟩⟩ | ⟨_, heq⟩ <;> rw [heq]
  · rw [CooLex.setIng_finalPosition]
    rfl
  · rfl

theorem traversePath_finalPosition (ns : List CatNode) (cl : CooLex) :
    (cl.traversePath ns).1.finalPosition = cl.finalPosition := by
  induction ns generalizing cl with
  | nil => rfl
  | cons n rest ih =>
    rw [CooLex.traversePath]
    rcases hstep : cl.traverseAndPrepare n with ⟨cl2, e⟩
    have hf : cl2.finalPosition = cl.finalPosition := by
      have := traverseAndPrepare_finalPosition cl n
      rw [hstep] at this
      exact this
    cases e with
    | none => rw [ih cl2, hf]
    | some e => exact hf

theorem pairSum_cons (a q : Int × Int) (l : List (Int × Int)) :
    pairSum a (q :: l) = distance a q + pairSum q l := rfl

theorem pairSum_append_last (a : Int × Int) (xs : List (Int × Int)) (z : Int × Int) :
    pairSum a (xs ++ [z]) = pairSum a xs + distance (xs.getLastD a) z := by
  induction xs generalizing a with
  | nil => simp [pairSum]
  | cons q rest ih =>
    rw [List.cons_append, pairSum_cons, pairSum_cons, ih q, List.getLastD_cons, add_assoc]

theorem getLastD_append_last {α : Type} (l : List α) (z : α) (d : α) :
    (l ++ [z]).getLastD d = z := by
  induction l generalizing d with
  | nil => rfl
  | cons x rest ih => rw [List.cons_append, List.getLastD_cons, ih]

theorem stationOf_mk (cl : CooLex) (nm : String) (id : IngId) (chk : Bool)
    (c : List CatNode) :
    stationOf cl (CatNode.mk nm (some id) true chk c) =
      (cl.getIng id).map Ingredient.position := rfl

theorem stationsOf_topping_map (cl : CooLex) (c : List CatNode) (l : List Nat)
    (h : ∀ t ∈ l, t < cl.toppings.length) :
    stationsOf cl (l.map fun t =>
        CatNode.mk (cl.toppings.getD t default).name (some (IngId.topping t)) true true c) =
      some (l.map fun t => (cl.toppings.getD t default).position) := by
  induction l with
  | nil => rfl
  | cons t rest ih =>
    rw [List.map_cons, List.map_cons]
    refine stationsOf_cons_some _ _ _ _ _ ?_ (ih fun x hx => h x (List.mem_cons_of_mem t hx))
    rw [stationOf_mk]
    show (cl.toppings[t]?).map Ingredient.position = _
    rw [getElem?_eq_some_getD cl.toppings t (h t (List.mem_cons_self t rest))]
    rfl

/-- The state/outcome of a fully successful `prepare_bowl` run. -/
theorem prepareBowl_ok_state (cl : CooLex) (b p s : Nat) (ts ts2 : List Nat)
    (path : List CatNode) (cl2 : CooLex)
    (hres : resolvePath cl.root b p ts s = (ts2, Except.ok path))
    (htr : (cl.reset.moveTo (Ingredient.mk "Bowl Dispenser" 0 0 0
      cl.reset.bowlDispenserPosition)).traversePath path = (cl2, none)) :
    cl.prepareBowl b p ts s =
      (cl2.moveTo (Ingredient.mk "Final Position" 0 0 0 cl2.finalPosition),
       ts2, Except.ok ()) := by
  have h' : resolvePath cl.reset.root b p ts s = (ts2, Except.ok path) := hres
  simp only [CooLex.prepareBowl, h', htr]

/-- C5 (confirmed): one straight-line move between stations `(0,0)` and
`(3,4)` contributes exactly `5`; the head position becomes the target of
every move; and the total distance of a successful order is the sum of the
Euclidean distances between the consecutive stops of the visited sequence —
the fixed initial position `(310,310)`, the Bowl Dispenser `(650,660)`, the
stations of the path's ingredients in traversal order (selected base,
selected protein, selected toppings in descending index order, selected
sauce), and the fixed final position `(410,610)`. -/
theorem C5_distance (cl : CooLex)
    (hroot : cl.root = createTree cl.bowls cl.bases cl.proteins cl.toppings cl.sauces)
    (hInit : cl.initialPosition = (310, 310))
    (hDisp : cl.bowlDispenserPosition = (650, 660))
    (hFin : cl.finalPosition = (410, 610))
    (b p s : Nat) (ts : List Nat)
    (hok : (cl.prepareBowl b p ts s).2.2 = Except.ok ()) :
    distance (0, 0) (3, 4) = 5 ∧
    (∀ (cl2 : CooLex) (ing : Ingredient), (cl2.moveTo ing).currentPosition = ing.position) ∧
    ((cl.prepareBowl b p ts s).1).totalDistance =
      pairSum (310, 310)
        (((650, 660) :: (cl.bases.getD b default).position ::
            (cl.proteins.getD p default).position ::
            (((sortDesc ts).map fun t => (cl.toppings.getD t default).position) ++
              [(cl.sauces.getD s default).position])) ++ [(410, 610)]) := by
  refine ⟨?_, fun cl2 ing => rfl, ?_⟩
  · show Real.sqrt ((((0 : Int) - 3 : Int) : ℝ) ^ 2 + (((0 : Int) - 4 : Int) : ℝ) ^ 2) = 5
    have h25 : ((((0 : Int) - 3 : Int) : ℝ) ^ 2 + (((0 : Int) - 4 : Int) : ℝ) ^ 2) = 25 := by
      norm_num
    rw [h25, show (25 : ℝ) = 5 ^ 2 by norm_num]
    exact Real.sqrt_sq (by norm_num)
  · rcases hres : resolvePath cl.root b p ts s with ⟨ts2, res⟩
    cases res with
    | error e =>
      have h' : resolvePath cl.reset.root b p ts s = (ts2, Except.error e) := hres
      simp only [CooLex.prepareBowl, h'] at hok
      exact absurd hok (by simp)
    | ok path =>
      have hres2 := hres
      rw [hroot] at hres2
      obtain ⟨hb, hp, hne, hts, hs, hts2eq, hpath⟩ :=
        resolvePath_ok_inv _ _ _ _ _ b p s ts ts2 path hres2
      rcases htr : (cl.reset.moveTo (Ingredient.mk "Bowl Dispenser" 0 0 0
          cl.reset.bowlDispenserPosition)).traversePath path with ⟨cl2, e⟩
      cases e with
      | some e =>
        have h' : resolvePath cl.reset.root b p ts s = (ts2, Except.ok path) := hres
        simp only [CooLex.prepareBowl, h', htr] at hok
        exact absurd hok (by simp)
      | none =>
        rw [prepareBowl_ok_state cl b p s ts ts2 path cl2 hres htr]
        have hpos1 : ∀ idq, (cl.reset.moveTo (Ingredient.mk "Bowl Dispenser" 0 0 0
            cl.reset.bowlDispenserPosition)).posOf idq = cl.posOf idq := fun idq => by
          rw [CooLex.posOf, CooLex.posOf, CooLex.moveTo_getIng, CooLex.reset_getIng]
        have hstations : stationsOf (cl.reset.moveTo (Ingredient.mk "Bowl Dispenser" 0 0 0
            cl.reset.bowlDispenserPosition)) path =
            some ((cl.bases.getD b default).position ::
              (cl.proteins.getD p default).position ::
              (((sortDesc ts).map fun t => (cl.toppings.getD t default).position) ++
                [(cl.sauces.getD s default).position])) := by
          rw [stationsOf_congr cl _ hpos1 path, hpath]
          refine stationsOf_cons_some _ _ _ _ _ ?_ ?_
          · rw [stationOf_mk]
            show (cl.bases[b]?).map Ingredient.position = _
            rw [getElem?_eq_some_getD cl.bases b hb]
            rfl
          refine stationsOf_cons_some _ _ _ _ _ ?_ ?_
          · rw [stationOf_mk]
            show (cl.proteins[p]?).map Ingredient.position = _
            rw [getElem?_eq_some_getD cl.proteins p hp]
            rfl
          refine stationsOf_append_some _ _ _ _ _ ?_ ?_
          · exact stationsOf_topping_map cl _ (sortDesc ts)
              (fun t ht => hts t ((sortDesc_mem ts t).mp ht))
          refine stationsOf_cons_some _ _ _ _ _ ?_ rfl
          · rw [stationOf_mk]
            show (cl.sauces[s]?).map Ingredient.position = _
            rw [getElem?_eq_some_getD cl.sauces s hs]
            rfl
        obtain ⟨hA, hB⟩ := traversePath_dist path _ _ hstations (by rw [htr])
        rw [htr] at hA hB
        simp only at hA hB
        have hfp2 : cl2.finalPosition = (410, 610) := by
          have := traversePath_finalPosition path (cl.reset.moveTo (Ingredient.mk
            "Bowl Dispenser" 0 0 0 cl.reset.bowlDispenserPosition))
          rw [htr] at this
          simp only at this
          rw [this]
          show cl.finalPosition = (410, 610)
          exact hFin
        have hd1 : (cl.reset.moveTo (Ingredient.mk "Bowl Dispenser" 0 0 0
            cl.reset.bowlDispenserPosition)).totalDistance =
            0 + distance (310, 310) (650, 660) := by
          rw [CooLex.moveTo_totalDistance, CooLex.reset_totalDistance,
            CooLex.reset_currentPosition, hInit]
          show (0 : ℝ) + distance (310, 310) cl.reset.bowlDispenserPosition = _
          rw [show cl.reset.bowlDispenserPosition = cl.bowlDispenserPosition from rfl, hDisp]
        have hp1 : (cl.reset.moveTo (Ingredient.mk "Bowl Dispenser" 0 0 0
            cl.reset.bowlDispenserPosition)).currentPosition = (650, 660) := by
          rw [CooLex.moveTo_currentPosition]
          show cl.reset.bowlDispenserPosition = (650, 660)
          rw [show cl.reset.bowlDispenserPosition = cl.bowlDispenserPosition from rfl, hDisp]
        rw [CooLex.moveTo_totalDistance, hA, hd1, hp1,
          show (Ingredient.mk "Final Position" 0 0 0 cl2.finalPosition).position =
            cl2.finalPosition from rfl, hfp2, hB, hp1,
          pairSum_append_last, List.getLastD_cons, pairSum_cons]
        simp only [List.getLastD_cons, getLastD_append_last, pairSum_cons]
        ring

theorem C5_distance_witness :
    ((exCl.prepareBowl 0 0 [0] 0).2.2 = Except.ok ()) ∧
    ((exCl.prepareBowl 0 0 [0] 0).1).totalDistance =
      pairSum (310, 310)
        (((650, 660) :: (exCl.bases.getD 0 default).position ::
            (exCl.proteins.getD 0 default).position ::
            (((sortDesc [0]).map fun t => (exCl.toppings.getD t default).position) ++
              [(exCl.sauces.getD 0 default).position])) ++ [(410, 610)]) :=
  ⟨by decide, (C5_distance exCl rfl rfl rfl rfl 0 0 0 [0] (by decide)).2.2⟩

end CooLexModel
